import Mathlib

/-!
Shallow embedding of the OmniFuzz multi-agent decision-and-training core
(`src/core/experience_buffer.py`, `src/core/agent_array.py`,
`src/core/protocol_agent.py`, `src/training/reward_calculator.py`,
`src/training/trainer.py`) together with theorems settling the frozen
claims about it.

Modelling conventions: Python floats are modelled exactly over a linear
ordered field (`ℚ` where executability matters, `ℝ` where the code takes
real powers); Python dicts are association lists `List (String × β)`;
`numpy` arrays are `List`s; a `KeyError` is an `Option`/propagated `none`;
the stochastic draws of `np.random.choice` and `Categorical.sample` are
parameters (the drawn indices / the per-agent choice function), so each
theorem holds for every possible draw.
-/

namespace OmniFuzz

/-- Association-list lookup, the model of Python `dict[key]` /
`dict.get(key)`: the value at the first matching key, `none` if absent. -/
def lookupKey {β : Type _} (k : String) : List (String × β) → Option β
  | [] => none
  | (k', v) :: rest => if k' = k then some v else lookupKey k rest

/-- Model of Python `key in dict`. -/
def hasKey {β : Type _} (k : String) (m : List (String × β)) : Bool :=
  (lookupKey k m).isSome

/-! ## ExperienceBuffer (`src/core/experience_buffer.py`, class `ExperienceBuffer`) -/

/-- State of `ExperienceBuffer`: fixed `capacity`, the growing ring
`buffer`, and the write cursor `position`. -/
structure ExperienceBuffer (Exp : Type _) where
  capacity : Nat
  buffer : List Exp
  position : Nat

/-- `ExperienceBuffer.__init__(capacity)`: empty buffer, cursor 0. -/
def ExperienceBuffer.init (Exp : Type _) (capacity : Nat) : ExperienceBuffer Exp :=
  ⟨capacity, [], 0⟩

/-- `ExperienceBuffer.add`: append while below capacity, otherwise
overwrite the slot at the cursor; then advance the cursor mod capacity. -/
def ExperienceBuffer.add {Exp : Type _} (b : ExperienceBuffer Exp) (e : Exp) :
    ExperienceBuffer Exp :=
  let buf := if b.buffer.length < b.capacity then b.buffer ++ [e]
             else b.buffer.set b.position e
  ⟨b.capacity, buf, (b.position + 1) % b.capacity⟩

/-- A sequence of `add` calls, first record first. -/
def ExperienceBuffer.addAll {Exp : Type _} (b : ExperienceBuffer Exp)
    (rs : List Exp) : ExperienceBuffer Exp :=
  rs.foldl ExperienceBuffer.add b

/-! ## PrioritizedExperienceBuffer (same file, subclass) -/

/-- State of `PrioritizedExperienceBuffer`: the inherited ring buffer plus
`alpha`, `beta`, the per-slot `priorities` array (length = capacity) and
the running `max_priority`.  The numeric type `K` is `ℚ` or `ℝ`. -/
structure PrioritizedExperienceBuffer (K : Type _) (Exp : Type _) where
  base : ExperienceBuffer Exp
  alpha : K
  beta : K
  priorities : List K
  max_priority : K

/-- `PrioritizedExperienceBuffer.__init__`: `priorities = np.zeros(capacity)`,
`max_priority = 1.0`. -/
def PrioritizedExperienceBuffer.init (K : Type _) [Zero K] [One K] (Exp : Type _)
    (capacity : Nat) (alpha beta : K) : PrioritizedExperienceBuffer K Exp :=
  ⟨ExperienceBuffer.init Exp capacity, alpha, beta, List.replicate capacity 0, 1⟩

/-- `PrioritizedExperienceBuffer.add`: `super().add(experience)` (which
already advances `self.position`), then
`self.priorities[self.position] = self.max_priority`. -/
def PrioritizedExperienceBuffer.add {K Exp : Type _}
    (b : PrioritizedExperienceBuffer K Exp) (e : Exp) :
    PrioritizedExperienceBuffer K Exp :=
  let base := b.base.add e
  ⟨base, b.alpha, b.beta, b.priorities.set base.position b.max_priority,
    b.max_priority⟩

/-- `PrioritizedExperienceBuffer.update_priorities`. -/
def PrioritizedExperienceBuffer.update_priorities {K Exp : Type _}
    [LinearOrder K] (b : PrioritizedExperienceBuffer K Exp)
    (upds : List (Nat × K)) : PrioritizedExperienceBuffer K Exp :=
  upds.foldl
    (fun acc u =>
      ⟨acc.base, acc.alpha, acc.beta, acc.priorities.set u.1 u.2,
        max acc.max_priority u.2⟩) b

/-! ## Ring-buffer lemmas -/

theorem add_position {Exp : Type _} (b : ExperienceBuffer Exp) (e : Exp) :
    (b.add e).position = (b.position + 1) % b.capacity := rfl

theorem add_below_capacity {Exp : Type _} (b : ExperienceBuffer Exp) (e : Exp)
    (h : b.buffer.length < b.capacity) : (b.add e).buffer = b.buffer ++ [e] := by
  simp [ExperienceBuffer.add, h]

theorem add_at_capacity {Exp : Type _} (b : ExperienceBuffer Exp) (e : Exp)
    (h : ¬ b.buffer.length < b.capacity) :
    (b.add e).buffer = b.buffer.set b.position e := by
  simp [ExperienceBuffer.add, h]

/-- Filling lemma: starting from a state whose cursor equals
`buffer.length % capacity`, adding records that keep the total within
capacity appends them all and leaves the cursor at the new length mod
capacity. -/
theorem addAll_fill {Exp : Type _} (rs : List Exp) :
    ∀ b : ExperienceBuffer Exp, b.position = b.buffer.length % b.capacity →
    b.buffer.length + rs.length ≤ b.capacity →
    b.addAll rs = ⟨b.capacity, b.buffer ++ rs,
      (b.buffer.length + rs.length) % b.capacity⟩ := by
  induction rs with
  | nil =>
    intro b hpos _
    simp [ExperienceBuffer.addAll, ← hpos]
  | cons e rest ih =>
    intro b hpos hle
    have hlt : b.buffer.length < b.capacity := by
      have := hle
      simp only [List.length_cons] at this
      omega
    have hadd : b.add e =
        ⟨b.capacity, b.buffer ++ [e], (b.buffer.length + 1) % b.capacity⟩ := by
      have hmod : b.buffer.length % b.capacity = b.buffer.length :=
        Nat.mod_eq_of_lt hlt
      simp [ExperienceBuffer.add, hlt, hpos, hmod]
    have hstep : ExperienceBuffer.addAll b (e :: rest) =
        ExperienceBuffer.addAll (b.add e) rest := rfl
    rw [hstep, hadd]
    have hres := ih ⟨b.capacity, b.buffer ++ [e], (b.buffer.length + 1) % b.capacity⟩
      (by simp) (by simp at hle ⊢; omega)
    rw [hres]
    have harg : (b.buffer ++ [e]).length + rest.length =
        b.buffer.length + (e :: rest).length := by simp; omega
    rw [harg, List.append_assoc, List.singleton_append]

/-- Claim C3: `ExperienceBuffer.add` appends while the buffer is below
capacity, overwrites the slot at the cursor without growing once it is at
capacity, and always advances the cursor to `(cursor + 1) % capacity`;
consequently, after `C+1` adds of records `r₁ … r_{C+1}` into a fresh
buffer of capacity `C ≥ 1`, the length is `C`, slot 0 holds `r_{C+1}`, and
slots `1 … C-1` hold `r₂ … r_C` respectively. -/
theorem C3_ring_overwrite_law {Exp : Type _} (C : Nat) (rs : List Exp) (e : Exp)
    (hC : 1 ≤ C) (hlen : rs.length = C) :
    (∀ b : ExperienceBuffer Exp, ∀ x,
        (b.add x).position = (b.position + 1) % b.capacity) ∧
    (∀ b : ExperienceBuffer Exp, ∀ x, b.buffer.length < b.capacity →
        (b.add x).buffer = b.buffer ++ [x]) ∧
    (∀ b : ExperienceBuffer Exp, ∀ x, ¬ b.buffer.length < b.capacity →
        (b.add x).buffer = b.buffer.set b.position x) ∧
    ((ExperienceBuffer.init Exp C).addAll (rs ++ [e])).buffer.length = C ∧
    ((ExperienceBuffer.init Exp C).addAll (rs ++ [e])).buffer[0]? = some e ∧
    (∀ i, 1 ≤ i → i < C →
      ((ExperienceBuffer.init Exp C).addAll (rs ++ [e])).buffer[i]? = rs[i]?) := by
  have hfill : (ExperienceBuffer.init Exp C).addAll rs =
      ⟨C, rs, rs.length % C⟩ := by
    have := addAll_fill rs (ExperienceBuffer.init Exp C) (by simp [ExperienceBuffer.init])
      (by simp [ExperienceBuffer.init, hlen])
    simpa [ExperienceBuffer.init] using this
  have hsplit : (ExperienceBuffer.init Exp C).addAll (rs ++ [e]) =
      ((ExperienceBuffer.init Exp C).addAll rs).add e := by
    simp [ExperienceBuffer.addAll]
  have hmod : rs.length % C = 0 := by rw [hlen]; exact Nat.mod_self C
  have hfinal : (ExperienceBuffer.init Exp C).addAll (rs ++ [e]) =
      ⟨C, rs.set 0 e, 1 % C⟩ := by
    rw [hsplit, hfill]
    simp [ExperienceBuffer.add, hlen, hmod]
  refine ⟨fun b x => rfl, add_below_capacity, add_at_capacity, ?_, ?_, ?_⟩
  · rw [hfinal]; simp [hlen]
  · rw [hfinal]
    have : 0 < rs.length := by omega
    simp [List.getElem?_set, this]
  · intro i h1 h2
    rw [hfinal]
    simp only
    rw [List.getElem?_set, if_neg (by omega : ¬ 0 = i)]

/-- Witness for C3 at capacity 2 with records `[10, 20]` then `30`. -/
theorem C3_ring_overwrite_law_witness :
    (1 ≤ 2 ∧ ([10, 20] : List Nat).length = 2) ∧
    (((ExperienceBuffer.init Nat 2).addAll ([10, 20] ++ [30])).buffer[0]? = some 30 ∧
      ((ExperienceBuffer.init Nat 2).addAll ([10, 20] ++ [30])).buffer.length = 2) := by
  refine ⟨⟨by decide, by decide⟩, ?_, ?_⟩
  · exact (C3_ring_overwrite_law 2 [10, 20] 30 (by decide) (by decide)).2.2.2.2.1
  · exact (C3_ring_overwrite_law 2 [10, 20] 30 (by decide) (by decide)).2.2.2.1

/-- Claim C1 (code divergence): adding one record to a fresh
`PrioritizedExperienceBuffer` of capacity 2 stores the record at slot 0,
but the code writes `max_priority` to `priorities[1]` (the post-advance
cursor), leaving the new record's slot at priority 0 — not at the running
max priority as the spec's optimistic-initialization invariant requires. -/
theorem C1_add_priority_misassigned :
    ((PrioritizedExperienceBuffer.init ℚ Nat 2 (6/10) (4/10)).add 7).base.buffer = [7] ∧
    ((PrioritizedExperienceBuffer.init ℚ Nat 2 (6/10) (4/10)).add 7).max_priority = 1 ∧
    ((PrioritizedExperienceBuffer.init ℚ Nat 2 (6/10) (4/10)).add 7).priorities = [0, 1] ∧
    ((PrioritizedExperienceBuffer.init ℚ Nat 2 (6/10) (4/10)).add 7).priorities[0]? ≠
      some ((PrioritizedExperienceBuffer.init ℚ Nat 2 (6/10) (4/10)).add 7).max_priority := by
  refine ⟨rfl, rfl, by decide, by decide⟩

/-! ## Association-list lookup lemmas -/

theorem lookupKey_eq_none_iff {β : Type _} (k : String) :
    ∀ m : List (String × β), lookupKey k m = none ↔ k ∉ m.map Prod.fst := by
  intro m
  induction m with
  | nil => simp [lookupKey]
  | cons p rest ih =>
    obtain ⟨k', v⟩ := p
    by_cases h : k' = k
    · subst h
      simp [lookupKey]
    · simp [lookupKey, h, ih, Ne.symm h]

theorem mem_of_lookupKey_eq_some {β : Type _} {k : String} {v : β} :
    ∀ {m : List (String × β)}, lookupKey k m = some v → (k, v) ∈ m := by
  intro m
  induction m with
  | nil => intro h; exact absurd h (by simp [lookupKey])
  | cons p rest ih =>
    intro h
    obtain ⟨k', v'⟩ := p
    rw [lookupKey] at h
    by_cases hk : k' = k
    · rw [if_pos hk] at h
      have hv : v' = v := Option.some.inj h
      subst hk; subst hv
      exact List.mem_cons_self _ _
    · rw [if_neg hk] at h
      exact List.mem_cons_of_mem _ (ih h)

theorem lookupKey_eq_some_of_mem {β : Type _} {k : String} {v : β} :
    ∀ {m : List (String × β)}, (m.map Prod.fst).Nodup → (k, v) ∈ m →
      lookupKey k m = some v := by
  intro m
  induction m with
  | nil => intro _ hmem; exact absurd hmem (by simp)
  | cons p rest ih =>
    obtain ⟨k', v'⟩ := p
    intro hnd hmem
    simp only [List.map_cons, List.nodup_cons] at hnd
    rcases List.mem_cons.mp hmem with heq | htail
    · injection heq with h1 h2
      subst h1; subst h2
      rw [lookupKey, if_pos rfl]
    · have hk : k' ≠ k := by
        intro h
        subst h
        exact hnd.1 (List.mem_map.mpr ⟨(k', v), htail, rfl⟩)
      rw [lookupKey, if_neg hk]
      exact ih hnd.2 htail

/-- With duplicate-free keys, lookup is invariant under permutation of the
association list: the model of a Python dict being unordered. -/
theorem lookupKey_perm {β : Type _} {m m' : List (String × β)} (hperm : m.Perm m')
    (hnd : (m.map Prod.fst).Nodup) (k : String) : lookupKey k m = lookupKey k m' := by
  have hnd' : (m'.map Prod.fst).Nodup := ((hperm.map Prod.fst).nodup_iff).mp hnd
  cases h : lookupKey k m with
  | none =>
    have hk := (lookupKey_eq_none_iff k m).mp h
    have hk' : k ∉ m'.map Prod.fst := fun hx =>
      hk ((hperm.map Prod.fst).mem_iff.mpr hx)
    exact ((lookupKey_eq_none_iff k m').mpr hk').symm
  | some v =>
    have hmem := mem_of_lookupKey_eq_some h
    exact (lookupKey_eq_some_of_mem hnd' (hperm.mem_iff.mp hmem)).symm

/-! ## AgentArray (`src/core/agent_array.py`)

An agent is identified by its field name; the stochastic
`ProtocolAgent.select_action` draw is the parameter `f`. -/

/-- `AgentArray.select_actions`: iterates over all declared agents in
order and evaluates `observations[agent.field_name]`; a missing key is a
`KeyError`, modelled as a propagated `none`. -/
def selectActions {Obs Act : Type _} (f : String → Obs → Act) (agents : List String)
    (observations : List (String × Obs)) : Option (List (String × Act)) :=
  match agents with
  | [] => some []
  | a :: rest =>
    match lookupKey a observations with
    | none => none
    | some obs =>
      match selectActions f rest observations with
      | none => none
      | some acts => some ((a, f a obs) :: acts)

/-- Modelled from the spec: `select_actions` per the spec sentence
"calls `select_action` on every agent whose field is present in
`observations`" — agents whose field is absent are skipped, so the call
never fails when a declared field is merely absent. -/
def selectActionsSpec {Obs Act : Type _} (f : String → Obs → Act) (agents : List String)
    (observations : List (String × Obs)) : Option (List (String × Act)) :=
  some (agents.filterMap fun a =>
    (lookupKey a observations).map fun obs => (a, f a obs))

/-- `AgentArray.get_global_observation`: concatenates, in declared agent
order, the observations of the agents whose field is present
(`torch.cat(obs_list)`; the empty tensor when no field is present). -/
def get_global_observation (agents : List String)
    (observations : List (String × List ℚ)) : List ℚ :=
  (agents.filterMap fun a => lookupKey a observations).flatten

/-- Claim C2 (counterexample): with declared agents `["a", "b"]` and an
observation map containing only `"b"`, the code raises `KeyError` when it
queries `"a"` (result `none`), whereas the claim says agent `"a"` is
skipped and `select_action` is called on exactly the present agent `"b"`. -/
theorem C2_skip_absent_counterexample :
    selectActions (fun _ v => v) ["a", "b"] [("b", (1 : ℚ))] = none ∧
    selectActionsSpec (fun _ v => v) ["a", "b"] [("b", (1 : ℚ))] =
      some [("b", (1 : ℚ))] ∧
    selectActions (fun _ v => v) ["a", "b"] [("b", (1 : ℚ))] ≠
      selectActionsSpec (fun _ v => v) ["a", "b"] [("b", (1 : ℚ))] := by
  have h1 : selectActions (fun _ v => v) ["a", "b"] [("b", (1 : ℚ))] = none := rfl
  have h2 : selectActionsSpec (fun _ v => v) ["a", "b"] [("b", (1 : ℚ))] =
      some [("b", (1 : ℚ))] := rfl
  exact ⟨h1, h2, by rw [h1, h2]; simp⟩

/-- Claim C2 (amended): `select_actions` queries every declared agent's
field in order, so it fails (the `KeyError` propagates) exactly when some
declared agent's field is absent from the observation map; when every
declared field is present it returns the `select_action` result for every
declared agent, in declared order. -/
theorem C2_select_actions_requires_all_fields {Obs Act : Type _}
    (f : String → Obs → Act) (agents : List String)
    (observations : List (String × Obs)) :
    (selectActions f agents observations = none ↔
      ∃ a ∈ agents, lookupKey a observations = none) ∧
    (∀ g : String → Obs, (∀ a ∈ agents, lookupKey a observations = some (g a)) →
      selectActions f agents observations =
        some (agents.map fun a => (a, f a (g a)))) := by
  constructor
  · induction agents with
    | nil => simp [selectActions]
    | cons a rest ih =>
      cases h : lookupKey a observations with
      | none =>
        simp only [selectActions, h]
        exact ⟨fun _ => ⟨a, List.mem_cons_self _ _, h⟩, fun _ => trivial⟩
      | some obs =>
        cases hr : selectActions f rest observations with
        | none =>
          simp only [selectActions, h, hr]
          refine ⟨fun _ => ?_, fun _ => trivial⟩
          obtain ⟨x, hx, hnone⟩ := ih.mp hr
          exact ⟨x, List.mem_cons_of_mem _ hx, hnone⟩
        | some acts =>
          simp only [selectActions, h, hr]
          refine ⟨fun hcontra => Option.noConfusion hcontra, fun hex => ?_⟩
          obtain ⟨x, hx, hnone⟩ := hex
          rcases List.mem_cons.mp hx with rfl | hx'
          · rw [h] at hnone
            exact Option.noConfusion hnone
          · rw [ih.mpr ⟨x, hx', hnone⟩] at hr
            exact Option.noConfusion hr
  · intro g hall
    induction agents with
    | nil => simp [selectActions]
    | cons a rest ih =>
      have ha := hall a (List.mem_cons_self _ _)
      have hrest := ih fun x hx => hall x (List.mem_cons_of_mem _ hx)
      simp [selectActions, ha, hrest]

/-- Witness for C2's amended theorem: both declared fields present. -/
theorem C2_select_actions_witness :
    (∀ a ∈ ["a", "b"], lookupKey a [("a", (2 : ℚ)), ("b", (3 : ℚ))] =
      some ((fun x => if x = "a" then (2 : ℚ) else 3) a)) ∧
    selectActions (fun _ v => v) ["a", "b"] [("a", (2 : ℚ)), ("b", (3 : ℚ))] =
      some (["a", "b"].map fun a =>
        (a, (fun x => if x = "a" then (2 : ℚ) else 3) a)) := by
  refine ⟨by decide, ?_⟩
  exact (C2_select_actions_requires_all_fields (fun _ v => v) ["a", "b"]
    [("a", (2 : ℚ)), ("b", (3 : ℚ))]).2
    (fun x => if x = "a" then (2 : ℚ) else 3) (by decide)

/-- Claim C6: `get_global_observation` concatenates, in declared
agent-list order, exactly the observations of the agents whose field is
present: its size is the sum of the sizes of the present per-field
observations (absent fields contribute 0), it is the empty vector when no
agent's field is present, and (keys being duplicate-free) it does not
depend on the order of the input map. -/
theorem C6_global_observation (agents : List String)
    (observations observations' : List (String × List ℚ)) :
    (get_global_observation agents observations).length =
      (agents.map fun a => ((lookupKey a observations).getD []).length).sum ∧
    ((∀ a ∈ agents, lookupKey a observations = none) →
      get_global_observation agents observations = []) ∧
    (observations.Perm observations' → (observations.map Prod.fst).Nodup →
      get_global_observation agents observations =
        get_global_observation agents observations') := by
  refine ⟨?_, ?_, ?_⟩
  · induction agents with
    | nil => simp [get_global_observation]
    | cons a rest ih =>
      cases h : lookupKey a observations with
      | none => simpa [get_global_observation, h] using ih
      | some v =>
        simp only [get_global_observation, List.filterMap_cons, h,
          List.flatten_cons, List.length_append, List.map_cons, List.sum_cons,
          Option.getD_some] at ih ⊢
        omega
  · intro hall
    induction agents with
    | nil => simp [get_global_observation]
    | cons a rest ih =>
      have ha := hall a (List.mem_cons_self _ _)
      have hrest := ih fun x hx => hall x (List.mem_cons_of_mem _ hx)
      simp only [get_global_observation, List.filterMap_cons, ha] at hrest ⊢
      exact hrest
  · intro hperm hnd
    unfold get_global_observation
    have : (agents.filterMap fun a => lookupKey a observations) =
        agents.filterMap fun a => lookupKey a observations' := by
      apply List.filterMap_congr
      intro a _
      exact lookupKey_perm hperm hnd a
    rw [this]

/-- Witness for C6's permutation clause at a concrete input. -/
theorem C6_global_observation_witness :
    ([("x", [(1 : ℚ), 2]), ("y", [3])].Perm [("y", [(3 : ℚ)]), ("x", [1, 2])] ∧
      (([("x", [(1 : ℚ), 2]), ("y", [3])].map Prod.fst).Nodup) ∧
      (∀ a ∈ (["z"] : List String),
        lookupKey a [("x", [(1 : ℚ), 2]), ("y", [3])] = none)) ∧
    get_global_observation ["x", "y"] [("x", [(1 : ℚ), 2]), ("y", [3])] =
      get_global_observation ["x", "y"] [("y", [(3 : ℚ)]), ("x", [1, 2])] ∧
    get_global_observation ["z"] [("x", [(1 : ℚ), 2]), ("y", [3])] = [] := by
  refine ⟨⟨?_, by decide, by decide⟩, ?_, ?_⟩
  · exact List.Perm.swap _ _ _
  · exact (C6_global_observation ["x", "y"] [("x", [(1 : ℚ), 2]), ("y", [3])]
      [("y", [(3 : ℚ)]), ("x", [1, 2])]).2.2 (List.Perm.swap _ _ _) (by decide)
  · exact (C6_global_observation ["z"] [("x", [(1 : ℚ), 2]), ("y", [3])]
      [("y", [(3 : ℚ)]), ("x", [1, 2])]).2.1 (by decide)

/-! ## RewardCalculator (`src/training/reward_calculator.py`)

A vulnerability record is represented by its optional `'severity'` entry
(`vuln.get('severity', 'none')` reads nothing else); the per-episode
running set `discovered_vulnerabilities` is threaded explicitly. -/

/-- Configuration slice read by `RewardCalculator.__init__`:
`config['rewards']['vulnerability_scores']` and
`config['rewards']['weights']`. -/
structure RewardConfig where
  vulnerability_scores : List (String × ℚ)
  weight_vulnerability : ℚ
  weight_depth : ℚ
  weight_diversity : ℚ

/-- One `fuzzing_results` report. -/
structure FuzzingResults where
  vulnerabilities : List (Option String)
  execution_depth : List (String × ℚ)
  vulnerability_types : List String

/-- Per-vulnerability contribution inside
`RewardCalculator._calculate_vulnerability_reward`:
`score = self.vulnerability_weights.get(severity, 0)`, tripled for
`'critical'`, doubled for `'major'`. -/
def severityScore (scores : List (String × ℚ)) (sev : Option String) : ℚ :=
  let severity := sev.getD "none"
  let score := (lookupKey severity scores).getD 0
  if severity = "critical" then score * 3
  else if severity = "major" then score * 2
  else score

/-- `RewardCalculator._calculate_vulnerability_reward`: running total over
the vulnerability list. -/
def vulnerabilityReward (scores : List (String × ℚ))
    (vulns : List (Option String)) : ℚ :=
  vulns.foldl (fun total v => total + severityScore scores v) 0

/-- `RewardCalculator._calculate_depth_reward`: mean of the
execution-depth map's values, 0 for an empty map. -/
def depthReward (execution_depth : List (String × ℚ)) : ℚ :=
  if execution_depth.isEmpty then 0
  else (execution_depth.map Prod.snd).sum / execution_depth.length

/-- The running set after `_calculate_diversity_reward` inserts this
step's vulnerability-type labels. -/
def diversityRewardState (discovered : Finset String)
    (vulnerability_types : List String) : Finset String :=
  vulnerability_types.foldl (fun s t => insert t s) discovered

/-- `RewardCalculator._calculate_diversity_reward`: the size of the
running set after insertion. -/
def diversityReward (discovered : Finset String)
    (vulnerability_types : List String) : ℚ :=
  (diversityRewardState discovered vulnerability_types).card

/-- `RewardCalculator.calculate_reward`: the weighted combination of the
three terms, returned together with the mutated running set. -/
def calculate_reward (cfg : RewardConfig) (discovered : Finset String)
    (results : FuzzingResults) : ℚ × Finset String :=
  let vuln_reward := vulnerabilityReward cfg.vulnerability_scores results.vulnerabilities
  let depth_reward := depthReward results.execution_depth
  let s := diversityRewardState discovered results.vulnerability_types
  let diversity_reward : ℚ := s.card
  (cfg.weight_vulnerability * vuln_reward +
    cfg.weight_depth * depth_reward +
    cfg.weight_diversity * diversity_reward, s)

/-- `RewardCalculator.reset_diversity_tracking`: clears the running set. -/
def reset_diversity_tracking : Finset String := (∅ : Finset String)

theorem foldl_add_eq_sum {α : Type _} (f : α → ℚ) (l : List α) :
    ∀ a₀ : ℚ, l.foldl (fun acc v => acc + f v) a₀ = a₀ + (l.map f).sum := by
  induction l with
  | nil => intro a₀; simp
  | cons x xs ih =>
    intro a₀
    simp only [List.foldl_cons, List.map_cons, List.sum_cons]
    rw [ih (a₀ + f x)]
    ring

/-- The per-vulnerability contribution in base-score × multiplier form. -/
theorem severityScore_eq_base_mul_multiplier (scores : List (String × ℚ))
    (sev : Option String) :
    severityScore scores sev =
      ((lookupKey (sev.getD "none") scores).getD 0) *
        (if sev.getD "none" = "critical" then 3
         else if sev.getD "none" = "major" then 2 else 1) := by
  unfold severityScore
  by_cases h1 : sev.getD "none" = "critical"
  · simp [h1]
  · by_cases h2 : sev.getD "none" = "major"
    · simp [h1, h2]
    · simp [h1, h2]

/-- The configuration and report of the spec's reward-determinism
scenario. -/
def instanceConfig : RewardConfig :=
  ⟨[("critical", 4), ("major", 3), ("minor", 2)], 1/2, 1/4, 1/4⟩

/-- Report with severities `[critical, major, minor]`, depth map
`{a:150, b:80, c:200}` and 3 distinct vulnerability types. -/
def instanceResults : FuzzingResults :=
  ⟨[some "critical", some "major", some "minor"],
    [("a", 150), ("b", 80), ("c", 200)],
    ["type1", "type2", "type3"]⟩

/-- Claim C5: `calculate_reward` returns
`w_vuln · vulnerability_term + w_depth · depth_term + w_diversity ·
diversity_term`, the vulnerability term being the sum over vulnerabilities
of `base_score(severity) × multiplier(severity)` with multiplier 3 for
`critical`, 2 for `major`, 1 otherwise; on the spec's concrete scenario
the result is within `1/1000` of `46.583`. -/
theorem C5_reward_formula_and_instance :
    (∀ (cfg : RewardConfig) (s : Finset String) (r : FuzzingResults),
      (calculate_reward cfg s r).1 =
        cfg.weight_vulnerability *
          vulnerabilityReward cfg.vulnerability_scores r.vulnerabilities +
        cfg.weight_depth * depthReward r.execution_depth +
        cfg.weight_diversity * (diversityRewardState s r.vulnerability_types).card) ∧
    (∀ (scores : List (String × ℚ)) (vulns : List (Option String)),
      vulnerabilityReward scores vulns =
        (vulns.map fun v =>
          ((lookupKey (v.getD "none") scores).getD 0) *
            (if v.getD "none" = "critical" then 3
             else if v.getD "none" = "major" then 2 else 1)).sum) ∧
    |(calculate_reward instanceConfig ∅ instanceResults).1 - 46583/1000| ≤ 1/1000 := by
  refine ⟨fun cfg s r => rfl, ?_, ?_⟩
  · intro scores vulns
    unfold vulnerabilityReward
    rw [foldl_add_eq_sum (severityScore scores) vulns, zero_add]
    congr 1
    apply List.map_congr_left
    intro v _
    exact severityScore_eq_base_mul_multiplier scores v
  · have hv : vulnerabilityReward instanceConfig.vulnerability_scores
        instanceResults.vulnerabilities = 20 := by
      norm_num +decide [vulnerabilityReward, severityScore, lookupKey,
        instanceConfig, instanceResults]
    have hd : depthReward instanceResults.execution_depth = 430/3 := by
      norm_num [depthReward, instanceResults]
    have hc : (diversityRewardState ∅ instanceResults.vulnerability_types).card = 3 := by
      decide
    have hval : (calculate_reward instanceConfig ∅ instanceResults).1 =
        instanceConfig.weight_vulnerability * 20 +
          instanceConfig.weight_depth * (430/3) +
          instanceConfig.weight_diversity * ((3 : ℕ) : ℚ) := by
      simp only [calculate_reward]
      rw [hv, hd, hc]
    rw [hval]
    have hw : instanceConfig.weight_vulnerability = 1/2 ∧
        instanceConfig.weight_depth = 1/4 ∧
        instanceConfig.weight_diversity = 1/4 := ⟨rfl, rfl, rfl⟩
    rw [hw.1, hw.2.1, hw.2.2]
    rw [abs_of_nonneg (by norm_num)]
    norm_num

/-- Claim C9: within one episode the running set of distinct
vulnerability-type labels grows monotonically — for two successive
`calculate_reward` calls (any overlap between the type lists), the
diversity count returned by the second call is at least that of the first
— and `reset_diversity_tracking` empties the set. -/
theorem C9_diversity_monotone :
    (∀ (cfg : RewardConfig) (s : Finset String) (r1 r2 : FuzzingResults),
      ((calculate_reward cfg s r1).2.card : ℚ) ≤
        ((calculate_reward cfg (calculate_reward cfg s r1).2 r2).2.card : ℚ)) ∧
    reset_diversity_tracking = (∅ : Finset String) := by
  have hsub : ∀ (types : List String) (s : Finset String),
      s ⊆ diversityRewardState s types := by
    intro types
    induction types with
    | nil => intro s; exact Finset.Subset.refl s
    | cons t rest ih =>
      intro s
      exact (Finset.subset_insert t s).trans (ih (insert t s))
  refine ⟨fun cfg s r1 r2 => ?_, rfl⟩
  have hcard : (calculate_reward cfg s r1).2.card ≤
      (calculate_reward cfg (calculate_reward cfg s r1).2 r2).2.card :=
    Finset.card_le_card (hsub r2.vulnerability_types _)
  exact_mod_cast hcard

/-- Claim C10: a vulnerability whose severity label (with `'none'` for a
missing entry) is absent from the configured score table contributes
exactly 0, whatever the critical/major multiplier would be; a list of only
such vulnerabilities yields vulnerability term 0. -/
theorem C10_unknown_severity_zero (scores : List (String × ℚ))
    (vulns : List (Option String))
    (h : ∀ v ∈ vulns, lookupKey (v.getD "none") scores = none) :
    (∀ v ∈ vulns, severityScore scores v = 0) ∧
    vulnerabilityReward scores vulns = 0 := by
  have hzero : ∀ v ∈ vulns, severityScore scores v = 0 := by
    intro v hv
    rw [severityScore_eq_base_mul_multiplier, h v hv]
    simp
  refine ⟨hzero, ?_⟩
  unfold vulnerabilityReward
  rw [foldl_add_eq_sum (severityScore scores) vulns, zero_add]
  have : vulns.map (severityScore scores) = vulns.map fun _ => (0 : ℚ) :=
    List.map_congr_left hzero
  rw [this]
  simp

/-- Witness for C10: severities `critical` and missing, table knowing only
`minor`. -/
theorem C10_unknown_severity_zero_witness :
    (∀ v ∈ [some "critical", none], lookupKey ((v).getD "none")
      [("minor", (2 : ℚ))] = none) ∧
    vulnerabilityReward [("minor", (2 : ℚ))] [some "critical", none] = 0 := by
  refine ⟨by decide, ?_⟩
  exact (C10_unknown_severity_zero [("minor", (2 : ℚ))] [some "critical", none]
    (by decide)).2

/-! ## Trainer early stopping (`src/training/trainer.py`,
`OmniFuzzTrainer._check_early_stopping`) -/

/-- `max` over a nonempty Python list (`np`-style); the default is
returned only for `[]`, which the call sites exclude. -/
def listMax {α : Type _} [LinearOrder α] (d : α) : List α → α
  | [] => d
  | x :: xs => xs.foldl max x

theorem foldl_max_bounds {α : Type _} [LinearOrder α] (xs : List α) :
    ∀ a : α, a ≤ xs.foldl max a ∧ xs.foldl max a ∈ a :: xs ∧
      ∀ y ∈ xs, y ≤ xs.foldl max a := by
  induction xs with
  | nil => intro a; exact ⟨le_refl a, List.mem_cons_self _ _, by simp⟩
  | cons x xs ih =>
    intro a
    simp only [List.foldl_cons]
    obtain ⟨h1, h2, h3⟩ := ih (max a x)
    refine ⟨le_trans (le_max_left a x) h1, ?_, ?_⟩
    · rcases List.mem_cons.mp h2 with heq | hmem
      · rw [heq]
        rcases max_choice a x with hc | hc
        · rw [hc]; exact List.mem_cons_self _ _
        · rw [hc]; exact List.mem_cons_of_mem _ (List.mem_cons_self _ _)
      · exact List.mem_cons_of_mem _ (List.mem_cons_of_mem _ hmem)
    · intro y hy
      rcases List.mem_cons.mp hy with rfl | hmem
      · exact le_trans (le_max_right a y) h1
      · exact h3 y hmem

theorem le_listMax {α : Type _} [LinearOrder α] (d : α) {l : List α} {y : α}
    (hy : y ∈ l) : y ≤ listMax d l := by
  cases l with
  | nil => exact absurd hy (by simp)
  | cons x xs =>
    rcases List.mem_cons.mp hy with rfl | hmem
    · exact (foldl_max_bounds xs y).1
    · exact (foldl_max_bounds xs x).2.2 y hmem

theorem listMax_mem {α : Type _} [LinearOrder α] (d : α) {l : List α}
    (hl : l ≠ []) : listMax d l ∈ l := by
  cases l with
  | nil => exact absurd rfl hl
  | cons x xs => exact (foldl_max_bounds xs x).2.1

/-- `OmniFuzzTrainer._check_early_stopping`: `False` below 20 recorded
episode rewards; otherwise stop iff
`max(rewards[-20:]) == rewards[-20:][0]` and the current episode's total
reward is `≤ rewards[-20:][0]`. -/
def check_early_stopping (episode_rewards : List ℚ) (current : ℚ) : Bool :=
  if episode_rewards.length < 20 then false
  else
    let recent := episode_rewards.drop (episode_rewards.length - 20)
    decide (listMax 0 recent = recent.headD 0) && decide (current ≤ recent.headD 0)

/-- Claim C7: the early-stopping check returns `false` whenever fewer than
20 episode rewards have been recorded; with at least 20 recorded it
returns `true` exactly when no reward in the most recent 20-episode window
exceeds the window's first reward and the current episode's reward does not
exceed it either. -/
theorem C7_early_stopping (episode_rewards : List ℚ) (current : ℚ) :
    (episode_rewards.length < 20 →
      check_early_stopping episode_rewards current = false) ∧
    (∀ r0, 20 ≤ episode_rewards.length →
      (episode_rewards.drop (episode_rewards.length - 20)).head? = some r0 →
      (check_early_stopping episode_rewards current = true ↔
        (∀ x ∈ episode_rewards.drop (episode_rewards.length - 20), x ≤ r0) ∧
          current ≤ r0)) := by
  constructor
  · intro hlt
    unfold check_early_stopping
    rw [if_pos hlt]
  · intro r0 hge hhead
    have hnlt : ¬ episode_rewards.length < 20 := by omega
    have hne : episode_rewards.drop (episode_rewards.length - 20) ≠ [] := by
      intro hcontra
      rw [hcontra] at hhead
      exact Option.noConfusion hhead
    have hheadD : (episode_rewards.drop (episode_rewards.length - 20)).headD 0 = r0 := by
      have : (episode_rewards.drop (episode_rewards.length - 20)).headD 0 =
          ((episode_rewards.drop (episode_rewards.length - 20)).head?).getD 0 := by
        cases episode_rewards.drop (episode_rewards.length - 20) <;> simp
      rw [this, hhead]
      rfl
    have hr0mem : r0 ∈ episode_rewards.drop (episode_rewards.length - 20) :=
      List.mem_of_mem_head? (by simp [hhead])
    unfold check_early_stopping
    rw [if_neg hnlt]
    simp only [Bool.and_eq_true, decide_eq_true_eq]
    constructor
    · rintro ⟨hmax, hcur⟩
      rw [hheadD] at hmax hcur
      refine ⟨fun x hx => ?_, hcur⟩
      exact hmax ▸ le_listMax 0 hx
    · rintro ⟨hall, hcur⟩
      rw [hheadD]
      refine ⟨?_, hcur⟩
      have h1 : listMax 0 (episode_rewards.drop (episode_rewards.length - 20)) ≤ r0 :=
        hall _ (listMax_mem 0 hne)
      have h2 : r0 ≤ listMax 0 (episode_rewards.drop (episode_rewards.length - 20)) :=
        le_listMax 0 hr0mem
      exact le_antisymm h1 h2

/-- Witness for C7 at a window of 20 equal rewards. -/
theorem C7_early_stopping_witness :
    (20 ≤ (List.replicate 20 (1 : ℚ)).length ∧
      ((List.replicate 20 (1 : ℚ)).drop ((List.replicate 20 (1 : ℚ)).length - 20)).head? =
        some 1 ∧
      (List.replicate 3 (1 : ℚ)).length < 20) ∧
    (check_early_stopping (List.replicate 20 (1 : ℚ)) 0 = true ↔
      (∀ x ∈ (List.replicate 20 (1 : ℚ)).drop ((List.replicate 20 (1 : ℚ)).length - 20),
        x ≤ 1) ∧ (0 : ℚ) ≤ 1) ∧
    check_early_stopping (List.replicate 3 (1 : ℚ)) 0 = false := by
  refine ⟨⟨by decide, by decide, by decide⟩, ?_, ?_⟩
  · exact (C7_early_stopping (List.replicate 20 (1 : ℚ)) 0).2 1 (by decide) (by decide)
  · exact (C7_early_stopping (List.replicate 3 (1 : ℚ)) 0).1 (by decide)

/-! ## Policy update (`src/core/agent_array.py` `update_policies`,
`src/core/protocol_agent.py` `update_policy`)

`ProtocolAgent.update_policy` mutates only the agent's policy-network
parameters and its Adam optimizer state (the optimizer is constructed over
`policy_network.parameters()` only); the shared critic
(`value_network`) is only evaluated.  The numeric content of
`backward()`/`optimizer.step()` is the parameter `gradStep`, a function of
the critic's current parameters, the agent's current policy parameters and
optimizer state, the batch and the global reward — so every theorem below
holds for any gradient step. -/

/-- One stored transition record as read by the update path. -/
structure Experience where
  observations : List (String × List ℚ)
  actions : List (String × Nat)
  global_observation : List ℚ
  global_actions : List ℚ

/-- The mutable state of one `ProtocolAgent` (minus the borrowed critic):
its field name, policy-network parameters and optimizer state. -/
structure AgentState (P O : Type _) where
  field_name : String
  policyParams : P
  optState : O

/-- The mutable state of one `AgentArray`: its agents and the shared
critic (`shared_value_network`), borrowed by every agent. -/
structure ArrayState (P O V : Type _) where
  agents : List (AgentState P O)
  shared_value_network : V

/-- `ProtocolAgent.update_policy`: early return on an empty batch,
otherwise one gradient step on the policy parameters and optimizer state
(the only state the source assigns to); the critic is read, never
written. -/
def update_policy {P O V : Type _}
    (gradStep : V → P → O → List Experience → ℚ → P × O) (critic : V)
    (agent : AgentState P O) (experiences : List Experience)
    (global_reward : ℚ) : AgentState P O :=
  if experiences.isEmpty then agent
  else
    let po := gradStep critic agent.policyParams agent.optState experiences
      global_reward
    ⟨agent.field_name, po.1, po.2⟩

/-- `AgentArray.update_policies`: for each agent, filter the experiences
to those whose observation map contains the agent's field and call
`update_policy` on the filtered batch only when it is nonempty. -/
def update_policies {P O V : Type _}
    (gradStep : V → P → O → List Experience → ℚ → P × O)
    (st : ArrayState P O V) (experiences : List Experience)
    (global_reward : ℚ) : ArrayState P O V :=
  ⟨st.agents.map fun agent =>
      let field_experiences :=
        experiences.filter fun e => hasKey agent.field_name e.observations
      if field_experiences.isEmpty then agent
      else update_policy gradStep st.shared_value_network agent
        field_experiences global_reward,
    st.shared_value_network⟩

/-- Claim C8: `update_policies` calls each agent's `update_policy` exactly
on the order-preserving sublist of experiences whose observation map
contains that agent's field; an agent with no matching experiences keeps
its policy parameters and optimizer state unchanged (and `update_policy`
itself is a no-op on an empty batch), and neither call mutates the shared
critic — all of this for every possible gradient step. -/
theorem C8_update_policies_frame {P O V : Type _}
    (gradStep : V → P → O → List Experience → ℚ → P × O)
    (st : ArrayState P O V) (experiences : List Experience)
    (global_reward : ℚ) :
    (update_policies gradStep st experiences global_reward).shared_value_network =
      st.shared_value_network ∧
    (update_policies gradStep st experiences global_reward).agents.length =
      st.agents.length ∧
    (∀ (i : Nat) (a : AgentState P O), st.agents[i]? = some a →
      (update_policies gradStep st experiences global_reward).agents[i]? =
        some (if (experiences.filter fun e =>
            hasKey a.field_name e.observations).isEmpty then a
          else update_policy gradStep st.shared_value_network a
            (experiences.filter fun e => hasKey a.field_name e.observations)
            global_reward)) ∧
    (∀ (i : Nat) (a : AgentState P O), st.agents[i]? = some a →
      (∀ e ∈ experiences, hasKey a.field_name e.observations = false) →
      (update_policies gradStep st experiences global_reward).agents[i]? =
        some a) ∧
    (∀ critic agent,
      update_policy gradStep critic agent [] global_reward = agent) ∧
    (∀ fname,
      (experiences.filter fun e => hasKey fname e.observations).Sublist
        experiences ∧
      ∀ e, e ∈ (experiences.filter fun e => hasKey fname e.observations) ↔
        e ∈ experiences ∧ hasKey fname e.observations = true) := by
  have hmap : ∀ (i : Nat) (a : AgentState P O), st.agents[i]? = some a →
      (update_policies gradStep st experiences global_reward).agents[i]? =
        some (if (experiences.filter fun e =>
            hasKey a.field_name e.observations).isEmpty then a
          else update_policy gradStep st.shared_value_network a
            (experiences.filter fun e => hasKey a.field_name e.observations)
            global_reward) := by
    intro i a ha
    unfold update_policies
    simp only [List.getElem?_map, ha]
    rfl
  refine ⟨rfl, by simp [update_policies], hmap, ?_, ?_, ?_⟩
  · intro i a ha hnone
    have hfil : (experiences.filter fun e =>
        hasKey a.field_name e.observations) = [] := by
      apply List.filter_eq_nil_iff.mpr
      intro e he
      rw [hnone e he]
      exact Bool.false_ne_true
    rw [hmap i a ha, hfil]
    rfl
  · intro critic agent
    unfold update_policy
    rfl
  · intro fname
    exact ⟨List.filter_sublist _, fun e => by
      rw [List.mem_filter]⟩

/-- Witness for C8: one agent whose field matches no experience is
untouched by a nontrivial gradient step. -/
theorem C8_update_policies_frame_witness :
    ((⟨[⟨"f1", (0 : ℚ), (0 : ℚ)⟩], (5 : ℚ)⟩ :
        ArrayState ℚ ℚ ℚ).agents[0]? = some ⟨"f1", 0, 0⟩ ∧
      (∀ e ∈ [(⟨[("other", [])], [], [], []⟩ : Experience)],
        hasKey "f1" e.observations = false)) ∧
    (update_policies (fun _ p o _ _ => (p + 1, o))
      (⟨[⟨"f1", (0 : ℚ), (0 : ℚ)⟩], (5 : ℚ)⟩ : ArrayState ℚ ℚ ℚ)
      [(⟨[("other", [])], [], [], []⟩ : Experience)] 2).agents[0]? =
        some ⟨"f1", 0, 0⟩ := by
  refine ⟨⟨rfl, by decide⟩, ?_⟩
  exact (C8_update_policies_frame (fun _ p o _ _ => (p + 1, o))
    (⟨[⟨"f1", (0 : ℚ), (0 : ℚ)⟩], (5 : ℚ)⟩ : ArrayState ℚ ℚ ℚ)
    [(⟨[("other", [])], [], [], []⟩ : Experience)] 2).2.2.2.1 0
    ⟨"f1", 0, 0⟩ rfl (by decide)

/-! ## Prioritized sampling (`PrioritizedExperienceBuffer.sample`)

The draw of `np.random.choice(len(buffer), batch_size, p=probs)` is the
parameter `draw` (a list of indices `< len(buffer)`), so the weight
properties hold for every possible draw. -/

/-- `probs[i]` as computed in `sample`: `priorities[:N] ** alpha`
normalized by its sum (an out-of-range read gives 0). -/
noncomputable def probs {Exp : Type _} (b : PrioritizedExperienceBuffer ℝ Exp)
    (i : ℕ) : ℝ :=
  (b.priorities.getD i 0) ^ b.alpha /
    ∑ j ∈ Finset.range b.base.buffer.length, (b.priorities.getD j 0) ^ b.alpha

/-- Pre-normalization importance weight of a drawn index:
`(len(self.buffer) * probs[i]) ** (-self.beta)`. -/
noncomputable def isWeightAt {Exp : Type _} (b : PrioritizedExperienceBuffer ℝ Exp)
    (i : ℕ) : ℝ :=
  ((b.base.buffer.length : ℝ) * probs b i) ^ (-b.beta)

/-- `weights /= weights.max()` over the drawn indices. -/
noncomputable def normalizedWeights {Exp : Type _}
    (b : PrioritizedExperienceBuffer ℝ Exp) (draw : List ℕ) : List ℝ :=
  (draw.map (isWeightAt b)).map
    fun w => w / listMax 0 (draw.map (isWeightAt b))

/-- `PrioritizedExperienceBuffer.sample`: below batch size all stored
records are returned with weight 1; otherwise the records at the drawn
indices paired with the max-normalized importance weights. -/
noncomputable def PrioritizedExperienceBuffer.sample {Exp : Type _} [Inhabited Exp]
    (b : PrioritizedExperienceBuffer ℝ Exp) (batch_size : ℕ) (draw : List ℕ) :
    List (Exp × ℝ) :=
  if b.base.buffer.length < batch_size then b.base.buffer.map fun e => (e, 1)
  else (draw.zip (normalizedWeights b draw)).map
    fun p => (b.base.buffer.getD p.1 default, p.2)

/-- Claim C4: with stored count `N ≥ batch_size ≥ 1` and all stored
priorities positive, the sampling probabilities
`p_i = priority_i^α / Σ_j priority_j^α` sum to 1, `sample` returns
`batch_size` records each carrying a weight in `(0, 1]` with at least one
weight equal to 1 (the maximum), for every possible draw of indices with
replacement; and with `N < batch_size` it returns all stored records, each
with weight 1. -/
theorem C4_prioritized_sample_weights {Exp : Type _} [Inhabited Exp]
    (b : PrioritizedExperienceBuffer ℝ Exp) (batch_size : ℕ) (draw : List ℕ)
    (hk : 0 < batch_size) (hkN : batch_size ≤ b.base.buffer.length)
    (hdraw : draw.length = batch_size)
    (hidx : ∀ i ∈ draw, i < b.base.buffer.length)
    (hpos : ∀ j < b.base.buffer.length, 0 < b.priorities.getD j 0) :
    (∑ j ∈ Finset.range b.base.buffer.length, probs b j = 1) ∧
    (b.sample batch_size draw).length = batch_size ∧
    (∀ p ∈ b.sample batch_size draw, 0 < p.2 ∧ p.2 ≤ 1) ∧
    (∃ p ∈ b.sample batch_size draw, p.2 = 1) ∧
    (∀ (b' : PrioritizedExperienceBuffer ℝ Exp) (k' : ℕ) (d' : List ℕ),
      b'.base.buffer.length < k' →
      b'.sample k' d' = b'.base.buffer.map fun e => (e, 1)) := by
  have hNpos : 0 < b.base.buffer.length := lt_of_lt_of_le hk hkN
  have hterm : ∀ j ∈ Finset.range b.base.buffer.length,
      0 < (b.priorities.getD j 0) ^ b.alpha := fun j hj =>
    Real.rpow_pos_of_pos (hpos j (Finset.mem_range.mp hj)) _
  have hSpos : 0 < ∑ j ∈ Finset.range b.base.buffer.length,
      (b.priorities.getD j 0) ^ b.alpha :=
    Finset.sum_pos hterm (Finset.nonempty_range_iff.mpr (Nat.pos_iff_ne_zero.mp hNpos))
  have hsum1 : ∑ j ∈ Finset.range b.base.buffer.length, probs b j = 1 := by
    unfold probs
    rw [← Finset.sum_div]
    exact div_self (ne_of_gt hSpos)
  have hprobs_pos : ∀ i, i < b.base.buffer.length → 0 < probs b i := by
    intro i hi
    unfold probs
    exact div_pos (Real.rpow_pos_of_pos (hpos i hi) _) hSpos
  have hw_pos : ∀ i ∈ draw, 0 < isWeightAt b i := by
    intro i hi
    unfold isWeightAt
    exact Real.rpow_pos_of_pos
      (mul_pos (by exact_mod_cast hNpos) (hprobs_pos i (hidx i hi))) _
  have hdraw_ne : draw ≠ [] := by
    intro hnil
    rw [hnil] at hdraw
    simp at hdraw
    omega
  have hws_ne : draw.map (isWeightAt b) ≠ [] := by
    intro hnil
    exact hdraw_ne (List.map_eq_nil_iff.mp hnil)
  have hM_mem : listMax 0 (draw.map (isWeightAt b)) ∈ draw.map (isWeightAt b) :=
    listMax_mem 0 hws_ne
  have hM_pos : 0 < listMax 0 (draw.map (isWeightAt b)) := by
    obtain ⟨i, hi, heq⟩ := List.mem_map.mp hM_mem
    exact heq ▸ hw_pos i hi
  have hnw_bounds : ∀ w ∈ normalizedWeights b draw, 0 < w ∧ w ≤ 1 := by
    intro w hw
    unfold normalizedWeights at hw
    obtain ⟨w0, hw0, rfl⟩ := List.mem_map.mp hw
    obtain ⟨i, hi, heq⟩ := List.mem_map.mp hw0
    exact ⟨div_pos (heq ▸ hw_pos i hi) hM_pos,
      (div_le_one hM_pos).mpr (le_listMax 0 hw0)⟩
  have hnw_one : ∃ w ∈ normalizedWeights b draw, w = 1 := by
    refine ⟨listMax 0 (draw.map (isWeightAt b)) /
      listMax 0 (draw.map (isWeightAt b)), ?_, div_self (ne_of_gt hM_pos)⟩
    unfold normalizedWeights
    exact List.mem_map.mpr ⟨listMax 0 (draw.map (isWeightAt b)), hM_mem, rfl⟩
  have hnlt : ¬ b.base.buffer.length < batch_size := by omega
  have hsample : b.sample batch_size draw =
      (draw.zip (normalizedWeights b draw)).map
        (fun p => (b.base.buffer.getD p.1 default, p.2)) := by
    unfold PrioritizedExperienceBuffer.sample
    rw [if_neg hnlt]
  have hlen_nw : (normalizedWeights b draw).length = draw.length := by
    unfold normalizedWeights
    simp
  have hsnd : (b.sample batch_size draw).map Prod.snd = normalizedWeights b draw := by
    rw [hsample, List.map_map]
    have hcomp : (Prod.snd ∘ fun p : ℕ × ℝ =>
        (b.base.buffer.getD p.1 default, p.2)) = Prod.snd := rfl
    rw [hcomp]
    exact List.map_snd_zip _ _ (le_of_eq hlen_nw)
  refine ⟨hsum1, ?_, ?_, ?_, ?_⟩
  · rw [hsample, List.length_map, List.length_zip, hlen_nw, min_self, hdraw]
  · intro p hp
    have hmem : p.2 ∈ normalizedWeights b draw :=
      hsnd ▸ List.mem_map_of_mem Prod.snd hp
    exact hnw_bounds p.2 hmem
  · obtain ⟨w, hw, hw1⟩ := hnw_one
    have hmem : w ∈ (b.sample batch_size draw).map Prod.snd := hsnd ▸ hw
    obtain ⟨p, hp, hpw⟩ := List.mem_map.mp hmem
    exact ⟨p, hp, hpw.trans hw1⟩
  · intro b' k' d' hlt
    unfold PrioritizedExperienceBuffer.sample
    rw [if_pos hlt]

/-- Witness for C4 at a one-slot buffer with priority 2 and the draw `[0]`. -/
theorem C4_prioritized_sample_weights_witness :
    (0 < 1 ∧
      1 ≤ ((⟨⟨1, [7], 1⟩, 1, 1, [2], 1⟩ :
        PrioritizedExperienceBuffer ℝ ℕ)).base.buffer.length ∧
      ([0] : List ℕ).length = 1 ∧
      (∀ i ∈ ([0] : List ℕ), i < ((⟨⟨1, [7], 1⟩, 1, 1, [2], 1⟩ :
        PrioritizedExperienceBuffer ℝ ℕ)).base.buffer.length) ∧
      (∀ j < ((⟨⟨1, [7], 1⟩, 1, 1, [2], 1⟩ :
          PrioritizedExperienceBuffer ℝ ℕ)).base.buffer.length,
        0 < ((⟨⟨1, [7], 1⟩, 1, 1, [2], 1⟩ :
          PrioritizedExperienceBuffer ℝ ℕ)).priorities.getD j 0)) ∧
    ∃ p ∈ (⟨⟨1, [7], 1⟩, 1, 1, [2], 1⟩ :
      PrioritizedExperienceBuffer ℝ ℕ).sample 1 [0], p.2 = 1 := by
  have hp : ∀ j < ((⟨⟨1, [7], 1⟩, 1, 1, [2], 1⟩ :
      PrioritizedExperienceBuffer ℝ ℕ)).base.buffer.length,
      0 < ((⟨⟨1, [7], 1⟩, 1, 1, [2], 1⟩ :
        PrioritizedExperienceBuffer ℝ ℕ)).priorities.getD j 0 := by
    intro j hj
    have hj0 : j = 0 := by
      simp only [List.length_singleton] at hj
      omega
    subst hj0
    norm_num [List.getD]
  refine ⟨⟨by norm_num, by norm_num, rfl, by norm_num, hp⟩, ?_⟩
  exact (C4_prioritized_sample_weights
    (⟨⟨1, [7], 1⟩, 1, 1, [2], 1⟩ : PrioritizedExperienceBuffer ℝ ℕ) 1 [0]
    (by norm_num) (by norm_num) rfl (by norm_num) hp).2.2.2.1

end OmniFuzz
